import Mathlib

/- Verification of the manga-upscaler mediator core against its specification.
   The definitions below are a shallow embedding of the JavaScript source in
   src/extension/background.js and src/extension/content.js: byte buffers are
   lists of naturals, JS Maps are association lists in insertion order,
   Date.now() is an explicit natural-number argument, JS numbers used for
   geometry are rationals, and the running byte counter (a JS number that is
   freely added to and subtracted from) is an integer. -/

/- SECTION 1: the binary stream store (src/extension/background.js). -/

/- Fixed chunk size constant from background.js: 256 * 1024 bytes. -/
def AI_STREAM_CHUNK_SIZE : Nat := 256 * 1024

/- splitArrayBuffer(buffer, chunkSize) from background.js walks the buffer in
   strides of chunkSize, slicing u8.slice(i, i + chunkSize) each step.  The JS
   loop advances i by chunkSize per iteration, so for a positive chunkSize it
   runs at most buffer-length iterations; the fuel argument makes that bound
   explicit so the function stays structurally recursive. -/
def splitChunksFuel : Nat → Nat → List Nat → List (List Nat)
  | 0, _, _ => []
  | fuel + 1, c, l =>
    if l = [] then []
    else l.take c :: splitChunksFuel fuel c (l.drop c)

def splitArrayBuffer (chunkSize : Nat) (buffer : List Nat) : List (List Nat) :=
  splitChunksFuel buffer.length chunkSize buffer

/- One stored stream: chunks, byteLength, contentType, model, createdAt,
   mirroring the entry object built in storeAiStream. -/
structure AiStreamEntry where
  chunks : List (List Nat)
  byteLength : Nat
  contentType : String
  model : String
  createdAt : Nat
deriving DecidableEq

/- The aiStreamStore Map, id -> entry, in insertion order.  Ids are naturals
   standing for the random UUID strings of newStreamId. -/
def AiStreamStore := List (Nat × AiStreamEntry)

def lookupStream (id : Nat) (store : List (Nat × AiStreamEntry)) : Option AiStreamEntry :=
  (store.find? (fun kv => kv.1 == id)).map (·.2)

/- storeAiStream: split the buffer with the fixed chunk constant, record
   byteLength = buffer.byteLength, insert under a fresh id, and return
   (id, chunkCount).  (The safety-TTL timer deletion is a timed event outside
   this step.) -/
def storeAiStream (buffer : List Nat) (contentType model : String) (now id : Nat)
    (store : List (Nat × AiStreamEntry)) : (Nat × Nat) × List (Nat × AiStreamEntry) :=
  let chunks := splitArrayBuffer AI_STREAM_CHUNK_SIZE buffer
  let entry : AiStreamEntry :=
    { chunks := chunks, byteLength := buffer.length, contentType := contentType,
      model := model, createdAt := now }
  ((id, chunks.length), (id, entry) :: store)

/- Reply of the AI_STREAM_CHUNK message handler. -/
inductive ChunkReply where
  | ok (chunk : List Nat) (index : Nat) (last : Bool)
  | err (msg : String)
deriving DecidableEq

/- The AI_STREAM_CHUNK handler: unknown stream errors; a negative (or
   non-finite, impossible for an Int) index errors; an index with no chunk
   (entry.chunks[i] undefined) errors; otherwise the chunk is returned with
   its last-flag.  AI_STREAM_CHUNK_B64 has the identical control flow with a
   different transport encoding of the same bytes. -/
def aiStreamChunkMsg (store : List (Nat × AiStreamEntry)) (streamId : Nat)
    (index : Int) : ChunkReply :=
  match lookupStream streamId store with
  | none => .err "Unknown stream"
  | some entry =>
    if index < 0 then .err "Invalid chunk index"
    else
      match entry.chunks[index.toNat]? with
      | none => .err "Chunk not found"
      | some chunk => .ok chunk index.toNat (index.toNat == entry.chunks.length - 1)

/- A reply never carries a zero-length chunk (!chunk errors undefined chunks,
   and store-produced chunks are nonempty). -/
def replyNonEmpty : ChunkReply → Prop
  | .ok chunk _ _ => chunk ≠ []
  | .err _ => True

/- The AI_STREAM_DELETE handler: aiStreamStore.delete(id), always replying ok.
   On the association list this removes the binding for the id (a JS Map holds
   at most one). -/
def aiStreamDeleteMsg (streamId : Nat) (store : List (Nat × AiStreamEntry)) :
    List (Nat × AiStreamEntry) :=
  store.filter (fun kv => kv.1 != streamId)

/- SECTION 2: the enhanced-preload cache (src/extension/content.js). -/

def ENHANCED_PRELOAD_TTL_MS : Nat := 2 * 60 * 1000
def ENHANCED_PRELOAD_MAX_ENTRIES : Nat := 6
def ENHANCED_PRELOAD_MAX_BYTES : Nat := 140 * 1024 * 1024

/- One cache entry; blob/contentType/model carry no bytes-accounting content
   and are omitted from the embedding. -/
structure PreloadEntry where
  byteLength : Nat
  createdAt : Nat
  lastUsedAt : Nat
deriving DecidableEq

/- enhancedPreloadCache (a Map in insertion order) together with the separate
   running counter enhancedPreloadTotalBytes. -/
structure PreloadCache where
  entries : List (Nat × PreloadEntry)
  totalBytes : Int
deriving DecidableEq

def emptyPreloadCache : PreloadCache := { entries := [], totalBytes := 0 }

/- Number(v?.lastUsedAt || v?.createdAt || 0): lastUsedAt unless it is falsy
   (0), then createdAt, then 0. -/
def effLastUsed (e : PreloadEntry) : Nat :=
  if e.lastUsedAt ≠ 0 then e.lastUsedAt else e.createdAt

/- The TTL test of the first eviction pass: !v?.createdAt (createdAt falsy)
   or now - createdAt > TTL.  JS gives a negative difference for a future
   createdAt, which is not > TTL; truncated Nat subtraction agrees. -/
def ttlExpired (now : Nat) (e : PreloadEntry) : Bool :=
  e.createdAt == 0 || decide (ENHANCED_PRELOAD_TTL_MS < now - e.createdAt)

def sumBytes (l : List (Nat × PreloadEntry)) : Nat :=
  (l.map fun kv => kv.2.byteLength).sum

/- First loop of _evictEnhancedPreloadIfNeeded: delete every TTL-expired
   entry, subtracting each deleted entry's byteLength from the counter. -/
def evictExpired (now : Nat) (c : PreloadCache) : PreloadCache :=
  { entries := c.entries.filter (fun kv => !ttlExpired now kv.2),
    totalBytes := c.totalBytes - sumBytes (c.entries.filter (fun kv => ttlExpired now kv.2)) }

/- The oldest-entry scan of the capacity loop: oldestAt starts at Infinity,
   and an entry replaces the current best only when strictly older, so the
   first entry in iteration (= insertion) order wins ties. -/
def findOldestAux : List (Nat × PreloadEntry) → Nat → Nat → Nat
  | [], bestKey, _ => bestKey
  | kv :: rest, bestKey, bestAt =>
    if effLastUsed kv.2 < bestAt then findOldestAux rest kv.1 (effLastUsed kv.2)
    else findOldestAux rest bestKey bestAt

def findOldestKey : List (Nat × PreloadEntry) → Option Nat
  | [] => none
  | kv :: rest => some (findOldestAux rest kv.1 (effLastUsed kv.2))

def lookupEntry (key : Nat) (l : List (Nat × PreloadEntry)) : Option PreloadEntry :=
  (l.find? (fun kv => kv.1 == key)).map (·.2)

/- Map.delete on the association list. -/
def removeKey (key : Nat) (l : List (Nat × PreloadEntry)) : List (Nat × PreloadEntry) :=
  l.eraseP (fun kv => kv.1 == key)

/- Map.set: replace in place (JS Maps keep the original position of an
   existing key), or append a new binding. -/
def setEntry (key : Nat) (e : PreloadEntry) : List (Nat × PreloadEntry) → List (Nat × PreloadEntry)
  | [] => [(key, e)]
  | kv :: rest => if kv.1 == key then (key, e) :: rest else kv :: setEntry key e rest

/- Second loop of _evictEnhancedPreloadIfNeeded: while over either bound,
   remove the oldest entry by effLastUsed and subtract its byteLength.  Each
   iteration removes one entry, so fuel = entry count bounds the loop; the
   loop also breaks when no oldest key exists (empty map). -/
def evictCapacityFuel : Nat → PreloadCache → PreloadCache
  | 0, c => c
  | fuel + 1, c =>
    if ENHANCED_PRELOAD_MAX_ENTRIES < c.entries.length ∨
        (ENHANCED_PRELOAD_MAX_BYTES : Int) < c.totalBytes then
      match findOldestKey c.entries with
      | none => c
      | some k =>
        let b : Nat := ((lookupEntry k c.entries).map (·.byteLength)).getD 0
        evictCapacityFuel fuel { entries := removeKey k c.entries, totalBytes := c.totalBytes - b }
    else c

/- _evictEnhancedPreloadIfNeeded: TTL pass then capacity pass. -/
def evictEnhancedPreloadIfNeeded (now : Nat) (c : PreloadCache) : PreloadCache :=
  let c1 := evictExpired now c
  evictCapacityFuel c1.entries.length c1

/- getEnhancedPreloadEntry: run the sweep, then return the entry (touching
   lastUsedAt in place) or none. -/
def getEnhancedPreloadEntry (now key : Nat) (c : PreloadCache) :
    Option PreloadEntry × PreloadCache :=
  let c1 := evictEnhancedPreloadIfNeeded now c
  match lookupEntry key c1.entries with
  | none => (none, c1)
  | some v =>
    let v1 := { v with lastUsedAt := now }
    (some v1, { c1 with entries := setEntry key v1 c1.entries })

/- The cache-insert tail of preloadAiForImage (after the enhanced bytes
   arrive): sweep, subtract a replaced entry's byteLength, set the fresh
   entry, add its byteLength, sweep again. -/
def putPreloadEntry (now key bytes : Nat) (c : PreloadCache) : PreloadCache :=
  let c1 := evictEnhancedPreloadIfNeeded now c
  let c2 : PreloadCache :=
    match lookupEntry key c1.entries with
    | some prev => { c1 with totalBytes := c1.totalBytes - prev.byteLength }
    | none => c1
  let e : PreloadEntry := { byteLength := bytes, createdAt := now, lastUsedAt := now }
  let c3 : PreloadCache := { entries := setEntry key e c2.entries, totalBytes := c2.totalBytes + bytes }
  evictEnhancedPreloadIfNeeded now c3

/- The cache's mutating entry points, for stating whole-history invariants. -/
inductive CacheOp where
  | sweep (now : Nat)
  | get (now key : Nat)
  | put (now key bytes : Nat)
deriving DecidableEq

def applyCacheOp (c : PreloadCache) : CacheOp → PreloadCache
  | .sweep now => evictEnhancedPreloadIfNeeded now c
  | .get now key => (getEnhancedPreloadEntry now key c).2
  | .put now key bytes => putPreloadEntry now key bytes c

def runCacheOps (ops : List CacheOp) : PreloadCache :=
  ops.foldl applyCacheOp emptyPreloadCache

/- The accounting invariant: the running counter equals the sum of the
   byteLength of the live entries. -/
def cacheInv (c : PreloadCache) : Prop :=
  c.totalBytes = (sumBytes c.entries : Int)

/- An entry returned by a get is within TTL of its creation. -/
def freshAge (now : Nat) : Option PreloadEntry → Prop
  | none => True
  | some e => now - e.createdAt ≤ ENHANCED_PRELOAD_TTL_MS

/- Reference description of the capacity loop's victim choice, written from
   the amended claim for comparison with findOldestKey: the first entry (in
   insertion order) attaining the minimum effective last-use time. -/
def specOldestKey (l : List (Nat × PreloadEntry)) : Option Nat :=
  match l with
  | [] => none
  | kv :: rest =>
    let m := (rest.map fun p => effLastUsed p.2).foldl min (effLastUsed kv.2)
    ((kv :: rest).find? fun p => effLastUsed p.2 == m).map (·.1)

/- SECTION 3: failure cooldown in enhanceViaHost (src/extension/content.js). -/

structure HostFailState where
  aiHostDownUntil : Nat
  aiHostFailCount : Nat
deriving DecidableEq

inductive EnhanceOutcome where
  | cooldownActive
  | cooldownEngaged
  | failed
  | ok
deriving DecidableEq

/- The cooldown-relevant skeleton of enhanceViaHost: reject while the
   cooldown window is active (without touching the counter); on a failed
   response increment the counter, and at 5 engage a 20 s cooldown and reset
   it; on a successful response reset the counter.  The message response is
   an oracle argument. -/
def enhanceViaHostStep (now : Nat) (respOk : Bool) (st : HostFailState) :
    EnhanceOutcome × HostFailState :=
  if now < st.aiHostDownUntil then (.cooldownActive, st)
  else if !respOk then
    let fc := st.aiHostFailCount + 1
    if 5 ≤ fc then (.cooldownEngaged, { aiHostDownUntil := now + 20000, aiHostFailCount := 0 })
    else (.failed, { st with aiHostFailCount := fc })
  else (.ok, { st with aiHostFailCount := 0 })

/- Fold a sequence of failed attempts at the given times. -/
def runFailedAttempts (times : List Nat) (st : HostFailState) : HostFailState :=
  times.foldl (fun s t => (enhanceViaHostStep t false s).2) st

/- SECTION 4: burst controller (src/extension/content.js). -/

structure BurstState where
  aiBurstCount : Nat
  aiBurstLastAt : Nat
  aiHostDownUntil : Nat
  cooldownNotifiedUntil : Nat
deriving DecidableEq

/- bumpAiBurstAndMaybeCooldown(countForCooldown, preload): reset the counter
   after more than 25 s of idle time, count the call, and at the fixed limit 8
   reset the counter and force an 8 s cooldown (noticing at most once per
   episode).  The preload flag only selects what the retry timer will do and
   does not affect counting or the limit. -/
def bumpAiBurstAndMaybeCooldown (countForCooldown : Bool) (now : Nat) (st : BurstState) :
    Bool × BurstState :=
  if !countForCooldown then (false, st)
  else
    let count0 := if st.aiBurstLastAt = 0 ∨ 25000 < now - st.aiBurstLastAt then 0 else st.aiBurstCount
    let count1 := count0 + 1
    if count1 < 8 then (false, { st with aiBurstCount := count1, aiBurstLastAt := now })
    else
      let downUntil := now + 8000
      let notified := if st.cooldownNotifiedUntil < now then downUntil else st.cooldownNotifiedUntil
      (true, { aiBurstCount := 0, aiBurstLastAt := now,
               aiHostDownUntil := downUntil, cooldownNotifiedUntil := notified })

/- The burst accounting of one processOnce cycle around the current item
   (content.js lines 1284-1288): the bump runs only after processImageElement
   resolves successfully (a throw skips it) and only in automatic mode
   (settings.autoPanel and not a manual showStatus run). -/
def processOnceBurstStep (autoPanel showStatus enhanceOk : Bool) (now : Nat)
    (st : BurstState) : BurstState :=
  if !enhanceOk then st
  else if autoPanel && !showStatus then (bumpAiBurstAndMaybeCooldown true now st).2
  else st

/- SECTION 5: backend lifecycle, ensureHostRunning (src/extension/background.js). -/

structure HostEnv where
  hostUp : Bool
  hostOkUntil : Nat
  clock : Nat
  startCount : Nat
deriving DecidableEq

/- pingHost: a fresh cached health signal short-circuits; otherwise the
   health request answers whether the host process is up, caching success for
   2 s. -/
def pingHost (e : HostEnv) : Bool × HostEnv :=
  if e.clock < e.hostOkUntil then (true, e)
  else if e.hostUp then (true, { e with hostOkUntil := e.clock + 2000 })
  else (false, e)

/- Program counter of one ensureHostRunning call.  Every await in the JS body
   (pingHost, startNativeHost, delay) is a suspension point, so one step runs
   the code between two awaits. -/
inductive EnsurePC where
  | atPing
  | atStart
  | atPoll (i : Nat)
  | finished (ok : Bool)
deriving DecidableEq

def ensureStep (e : HostEnv) (pc : EnsurePC) : HostEnv × EnsurePC :=
  match pc with
  | .atPing =>
    let r := pingHost e
    (r.2, if r.1 then .finished true else .atStart)
  | .atStart => ({ e with startCount := e.startCount + 1 }, .atPoll 0)
  | .atPoll i =>
    if 10 ≤ i then (e, .finished false)
    else
      let r := pingHost e
      (r.2, if r.1 then .finished true else .atPoll (i + 1))
  | .finished ok => (e, .finished ok)

/- Cooperative scheduler over several concurrent ensureHostRunning calls:
   run one step of a call, let time pass, or let the supervisor-started host
   process come up. -/
inductive SchedAction where
  | run (tid : Nat)
  | tick (ms : Nat)
  | hostComesUp
deriving DecidableEq

def schedStep (s : HostEnv × List EnsurePC) (a : SchedAction) : HostEnv × List EnsurePC :=
  match a with
  | .run tid =>
    match s.2[tid]? with
    | none => s
    | some pc =>
      let r := ensureStep s.1 pc
      (r.1, s.2.set tid r.2)
  | .tick ms => ({ s.1 with clock := s.1.clock + ms }, s.2)
  | .hostComesUp => ({ s.1 with hostUp := true }, s.2)

def runSched (init : HostEnv × List EnsurePC) (acts : List SchedAction) :
    HostEnv × List EnsurePC :=
  acts.foldl schedStep init

def ensureInitEnv : HostEnv := { hostUp := false, hostOkUntil := 0, clock := 0, startCount := 0 }

/- SECTION 6: visibility scoring, findBestVisibleImage (src/extension/content.js). -/

/- One entry of the visibleScores map: intersection area, rect center, and
   whether the element still has a usable source url (disconnected or
   placeholder images are dropped by the loop). -/
structure TrackedImg where
  id : Nat
  area : ℚ
  cx : ℚ
  cy : ℚ
  usable : Bool
deriving DecidableEq

/- scoreImg: area * centerBoost * comixBoost with
   centerBoost = 1 / (1 + dx + dy * 1.4), dx and dy the normalized distances
   of the rect center from the viewport center, and comixBoost = 1.15 on
   comix.to, else 1. -/
def scoreImg (comix : Bool) (vw vh area cx cy : ℚ) : ℚ :=
  let dx := |cx - vw / 2| / max 1 vw
  let dy := |cy - vh / 2| / max 1 vh
  let centerBoost := 1 / (1 + dx + dy * 1.4)
  let comixBoost : ℚ := if comix then 1.15 else 1
  area * centerBoost * comixBoost

def trackedScore (comix : Bool) (vw vh : ℚ) (t : TrackedImg) : ℚ :=
  scoreImg comix vw vh t.area t.cx t.cy

/- The tracked-map loop: skip unusable entries, keep the strict best score
   (best starts null with bestScore 0). -/
def findBestTrackedAux (comix : Bool) (vw vh : ℚ) :
    List TrackedImg → Option TrackedImg → ℚ → Option TrackedImg
  | [], best, _ => best
  | t :: rest, best, bestScore =>
    if t.usable then
      let s := trackedScore comix vw vh t
      if bestScore < s then findBestTrackedAux comix vw vh rest (some t) s
      else findBestTrackedAux comix vw vh rest best bestScore
    else findBestTrackedAux comix vw vh rest best bestScore

/- One document.images element for the fallback full scan: bounding rect and
   source-url usability. -/
structure PageImg where
  id : Nat
  left : ℚ
  top : ℚ
  width : ℚ
  height : ℚ
  usable : Bool
deriving DecidableEq

/- The filter pipeline of the fallback scan, returning the viewport
   intersection area when the image qualifies: usable url, rect at least
   80x80, rect not fully outside the viewport, positive intersection. -/
def fallbackArea (vw vh : ℚ) (p : PageImg) : Option ℚ :=
  if !p.usable then none
  else if p.width < 80 ∨ p.height < 80 then none
  else if p.top + p.height < 0 ∨ p.left + p.width < 0 ∨ vh < p.top ∨ vw < p.left then none
  else
    let iw := min (p.left + p.width) vw - max p.left 0
    let ih := min (p.top + p.height) vh - max p.top 0
    if iw ≤ 0 ∨ ih ≤ 0 then none
    else some (iw * ih)

/- Effective score a qualifying image gets in the fallback scan (0 stands for
   a skipped image, which can never win since best scores start at 0 and only
   strictly larger scores replace the best). -/
def fallbackEff (comix : Bool) (vw vh : ℚ) (p : PageImg) : ℚ :=
  match fallbackArea vw vh p with
  | none => 0
  | some area => scoreImg comix vw vh area (p.left + p.width / 2) (p.top + p.height / 2)

/- The fallback full-scan loop of findBestVisibleImage: the same
   scoreImg-based strict-best selection, applied to the computed intersection
   area of each qualifying image. -/
def findBestFallbackAux (comix : Bool) (vw vh : ℚ) :
    List PageImg → Option PageImg → ℚ → Option PageImg
  | [], best, _ => best
  | p :: rest, best, bestScore =>
    match fallbackArea vw vh p with
    | none => findBestFallbackAux comix vw vh rest best bestScore
    | some area =>
      let s := scoreImg comix vw vh area (p.left + p.width / 2) (p.top + p.height / 2)
      if bestScore < s then findBestFallbackAux comix vw vh rest (some p) s
      else findBestFallbackAux comix vw vh rest best bestScore

/- findBestVisibleImage: scan the tracked map first and return its best
   usable entry; if the map is empty or produced no best, fall back to the
   full document.images scan. -/
def findBestVisibleImage (comix : Bool) (vw vh : ℚ) (tracked : List TrackedImg)
    (pageImgs : List PageImg) : Option Nat :=
  match findBestTrackedAux comix vw vh tracked none 0 with
  | some t => some t.id
  | none => (findBestFallbackAux comix vw vh pageImgs none 0).map (·.id)

/- SECTION 7: lemmas and claim theorems. -/

/- Chunking lemmas: splitChunksFuel with fuel at least the buffer length and
   a positive chunk size behaves as the JS loop. -/

theorem splitChunksFuel_flatten : ∀ (fuel c : Nat) (l : List Nat),
    l.length ≤ fuel → 0 < c → (splitChunksFuel fuel c l).flatten = l := by
  intro fuel
  induction fuel with
  | zero =>
    intro c l hl _
    have h0 : l = [] := List.eq_nil_of_length_eq_zero (Nat.le_zero.mp hl)
    subst h0
    simp [splitChunksFuel]
  | succ f ih =>
    intro c l hl hc
    by_cases h : l = []
    · subst h; simp [splitChunksFuel]
    · simp only [splitChunksFuel, h, if_false, List.flatten_cons]
      rw [ih c (l.drop c) (by rw [List.length_drop]; omega) hc]
      exact List.take_append_drop c l

theorem splitChunksFuel_length : ∀ (fuel c : Nat) (l : List Nat),
    l.length ≤ fuel → 0 < c →
    (splitChunksFuel fuel c l).length = (l.length + c - 1) / c := by
  intro fuel
  induction fuel with
  | zero =>
    intro c l hl hc
    have h0 : l = [] := List.eq_nil_of_length_eq_zero (Nat.le_zero.mp hl)
    subst h0
    simp [splitChunksFuel, Nat.div_eq_of_lt (show c - 1 < c by omega)]
  | succ f ih =>
    intro c l hl hc
    by_cases h : l = []
    · subst h
      simp [splitChunksFuel, Nat.div_eq_of_lt (show c - 1 < c by omega)]
    · have hlen : 0 < l.length := List.length_pos.mpr h
      simp only [splitChunksFuel, h, if_false, List.length_cons]
      rw [ih c (l.drop c) (by rw [List.length_drop]; omega) hc, List.length_drop]
      by_cases hcl : c < l.length
      · have h1 : l.length - c + c - 1 = l.length - 1 := by omega
        have h2 : l.length + c - 1 = (l.length - 1) + c := by omega
        rw [h1, h2, Nat.add_div_right _ hc]
      · have h1 : l.length - c + c - 1 = c - 1 := by omega
        rw [h1, Nat.div_eq_of_lt (show c - 1 < c by omega),
          Nat.div_eq_of_lt_le (by omega : 1 * c ≤ l.length + c - 1)
            (by omega : l.length + c - 1 < (1 + 1) * c)]

theorem splitChunksFuel_getElem : ∀ (fuel c : Nat) (l : List Nat) (i : Nat),
    l.length ≤ fuel → 0 < c → i < (splitChunksFuel fuel c l).length →
    (splitChunksFuel fuel c l)[i]? = some ((l.drop (i * c)).take c) := by
  intro fuel
  induction fuel with
  | zero =>
    intro c l i hl _ hi
    have h0 : l = [] := List.eq_nil_of_length_eq_zero (Nat.le_zero.mp hl)
    subst h0
    simp [splitChunksFuel] at hi
  | succ f ih =>
    intro c l i hl hc hi
    by_cases h : l = []
    · subst h; simp [splitChunksFuel] at hi
    · match i with
      | 0 => simp [splitChunksFuel, h]
      | j + 1 =>
        simp only [splitChunksFuel, h, if_false, List.getElem?_cons_succ]
        have hj : j < (splitChunksFuel f c (l.drop c)).length := by
          simp only [splitChunksFuel, h, if_false, List.length_cons] at hi
          omega
        rw [ih c (l.drop c) j (by rw [List.length_drop]; omega) hc hj,
          List.drop_drop, Nat.succ_mul, Nat.add_comm (j * c) c]

theorem splitChunksFuel_mem_ne_nil : ∀ (fuel c : Nat) (l ch : List Nat),
    0 < c → ch ∈ splitChunksFuel fuel c l → ch ≠ [] := by
  intro fuel
  induction fuel with
  | zero => intro c l ch _ hm; simp [splitChunksFuel] at hm
  | succ f ih =>
    intro c l ch hc hm
    by_cases h : l = []
    · subst h; simp [splitChunksFuel] at hm
    · simp only [splitChunksFuel, h, if_false, List.mem_cons] at hm
      rcases hm with hm | hm
      · subst hm
        simp [List.take_eq_nil_iff, h]
        omega
      · exact ih c (l.drop c) ch hc hm

/-- C1: for every stored payload of length L and chunk size C the store
returns chunkCount = ceil(L/C) = (L + C - 1) / C; chunk i (0 ≤ i < chunkCount)
is exactly the byte range starting at i*C of length at most C (drop then
take); the chunks concatenate back to the payload with no gaps or overlaps;
storeAiStream applies this with the fixed 256 KiB constant; and chunk size 4
on a 10-byte buffer gives chunk lengths [4, 4, 2]. -/
theorem stream_store_chunk_partition :
    ∀ (c : Nat) (buffer : List Nat) (i : Nat) (ct m : String) (now id : Nat)
      (store : List (Nat × AiStreamEntry)),
    (0 < c → (splitArrayBuffer c buffer).length = (buffer.length + c - 1) / c) ∧
    (0 < c → i < (splitArrayBuffer c buffer).length →
      (splitArrayBuffer c buffer)[i]? = some ((buffer.drop (i * c)).take c)) ∧
    (0 < c → (splitArrayBuffer c buffer).flatten = buffer) ∧
    ((storeAiStream buffer ct m now id store).1.2
      = (buffer.length + AI_STREAM_CHUNK_SIZE - 1) / AI_STREAM_CHUNK_SIZE) ∧
    (lookupStream id (storeAiStream buffer ct m now id store).2
      = some { chunks := splitArrayBuffer AI_STREAM_CHUNK_SIZE buffer,
               byteLength := buffer.length, contentType := ct, model := m,
               createdAt := now }) ∧
    ((splitArrayBuffer 4 (List.range 10)).map List.length = [4, 4, 2]) := by
  intro c buffer i ct m now id store
  refine ⟨fun hc => splitChunksFuel_length _ _ _ le_rfl hc,
    fun hc hi => splitChunksFuel_getElem _ _ _ _ le_rfl hc hi,
    fun hc => splitChunksFuel_flatten _ _ _ le_rfl hc, ?_, ?_, by decide⟩
  · exact splitChunksFuel_length _ _ _ le_rfl (by decide)
  · simp [storeAiStream, lookupStream]

/-- Witness for C1 at chunk size 4 and the 10-byte buffer 0..9: the
hypotheses 0 < 4 and 2 < chunkCount hold, chunkCount is 3 = ceil(10/4),
chunk 2 is bytes [8, 9], and the chunks flatten back to the buffer. -/
theorem stream_store_chunk_partition_witness :
    0 < 4 ∧ 2 < (splitArrayBuffer 4 (List.range 10)).length ∧
    (splitArrayBuffer 4 (List.range 10)).length = 3 ∧
    (splitArrayBuffer 4 (List.range 10))[2]? = some [8, 9] ∧
    (splitArrayBuffer 4 (List.range 10)).flatten = List.range 10 := by
  have h := stream_store_chunk_partition 4 (List.range 10) 2 "" "" 0 0 []
  refine ⟨by decide, by decide, ?_, ?_, h.2.2.1 (by decide)⟩
  · rw [h.1 (by decide)]
    decide
  · rw [h.2.1 (by decide) (by decide)]
    decide

theorem lookupStream_delete (id : Nat) (store : List (Nat × AiStreamEntry)) :
    lookupStream id (aiStreamDeleteMsg id store) = none := by
  have h : (aiStreamDeleteMsg id store).find? (fun kv => kv.1 == id) = none := by
    rw [List.find?_eq_none]
    intro kv hm
    have := (List.mem_filter.mp hm).2
    simpa using this
  simp [lookupStream, h]

theorem lookupStream_fresh (buffer : List Nat) (ct m : String) (now fresh : Nat)
    (store : List (Nat × AiStreamEntry)) :
    lookupStream fresh (storeAiStream buffer ct m now fresh store).2
      = some { chunks := splitArrayBuffer AI_STREAM_CHUNK_SIZE buffer,
               byteLength := buffer.length, contentType := ct, model := m,
               createdAt := now } := by
  simp [storeAiStream, lookupStream]

/-- C9: the chunk handler errors on an unknown stream id, on a negative
index, and on an index at or past chunkCount (the chunk slot is undefined);
a successful reply never carries a zero-length chunk; after a delete every
chunk read of that id errors; and delete is idempotent, succeeding without
effect on an unknown or already-deleted id. -/
theorem stream_chunk_error_handling :
    ∀ (store : List (Nat × AiStreamEntry)) (sid : Nat) (buffer : List Nat)
      (ct m : String) (now fresh : Nat) (iAny iNeg iBig iOk : Int),
    (lookupStream sid store = none → aiStreamChunkMsg store sid iAny = .err "Unknown stream") ∧
    (iNeg < 0 → aiStreamChunkMsg (storeAiStream buffer ct m now fresh store).2 fresh iNeg
      = .err "Invalid chunk index") ∧
    (0 ≤ iBig → ((storeAiStream buffer ct m now fresh store).1.2 : Int) ≤ iBig →
      aiStreamChunkMsg (storeAiStream buffer ct m now fresh store).2 fresh iBig
        = .err "Chunk not found") ∧
    replyNonEmpty (aiStreamChunkMsg (storeAiStream buffer ct m now fresh store).2 fresh iOk) ∧
    (aiStreamChunkMsg (aiStreamDeleteMsg fresh (storeAiStream buffer ct m now fresh store).2) fresh iAny
      = .err "Unknown stream") ∧
    (aiStreamDeleteMsg fresh (aiStreamDeleteMsg fresh store) = aiStreamDeleteMsg fresh store) ∧
    (lookupStream sid store = none → aiStreamDeleteMsg sid store = store) := by
  intro store sid buffer ct m now fresh iAny iNeg iBig iOk
  have hl := lookupStream_fresh buffer ct m now fresh store
  refine ⟨?_, ?_, ?_, ?_, ?_, ?_, ?_⟩
  · intro h
    simp [aiStreamChunkMsg, h]
  · intro hneg
    simp only [aiStreamChunkMsg, hl]
    rw [if_pos hneg]
  · intro h0 hbig
    simp only [aiStreamChunkMsg, hl]
    rw [if_neg (by omega)]
    have hcount : (storeAiStream buffer ct m now fresh store).1.2
        = (splitArrayBuffer AI_STREAM_CHUNK_SIZE buffer).length := rfl
    rw [hcount] at hbig
    have hnone : (splitArrayBuffer AI_STREAM_CHUNK_SIZE buffer)[iBig.toNat]? = none :=
      List.getElem?_eq_none (by omega)
    simp [hnone]
  · simp only [aiStreamChunkMsg, hl]
    by_cases hio : iOk < 0
    · rw [if_pos hio]
      trivial
    · rw [if_neg hio]
      cases hgel : (splitArrayBuffer AI_STREAM_CHUNK_SIZE buffer)[iOk.toNat]? with
      | none => simp [replyNonEmpty]
      | some ch =>
        simp only [replyNonEmpty]
        obtain ⟨hlt, rfl⟩ := List.getElem?_eq_some.mp hgel
        exact splitChunksFuel_mem_ne_nil _ _ _ _ (by decide) (List.getElem_mem hlt)
  · simp [aiStreamChunkMsg, lookupStream_delete]
  · simp only [aiStreamDeleteMsg]
    rw [List.filter_filter]
    simp
  · intro h
    have hfind : store.find? (fun kv => kv.1 == sid) = none := by
      simpa [lookupStream] using h
    simp only [aiStreamDeleteMsg]
    rw [List.filter_eq_self]
    intro kv hm
    have := List.find?_eq_none.mp hfind kv hm
    simpa using this

/-- Witness for C9: on a one-chunk stored 10-byte payload under id 0, the
unknown-id, negative-index, out-of-range-index and post-delete hypotheses
are discharged concretely, chunk 0 comes back nonempty, and deleting id 3
from the empty store is a no-op. -/
theorem stream_chunk_error_handling_witness :
    aiStreamChunkMsg [] 3 0 = .err "Unknown stream" ∧
    aiStreamChunkMsg (storeAiStream (List.range 10) "image/png" "mj" 5 0 []).2 0 (-1)
      = .err "Invalid chunk index" ∧
    aiStreamChunkMsg (storeAiStream (List.range 10) "image/png" "mj" 5 0 []).2 0 1
      = .err "Chunk not found" ∧
    replyNonEmpty (aiStreamChunkMsg (storeAiStream (List.range 10) "image/png" "mj" 5 0 []).2 0 0) ∧
    aiStreamChunkMsg (aiStreamDeleteMsg 0 (storeAiStream (List.range 10) "image/png" "mj" 5 0 []).2) 0 0
      = .err "Unknown stream" ∧
    aiStreamDeleteMsg 3 ([] : List (Nat × AiStreamEntry)) = [] := by
  have h := stream_chunk_error_handling [] 3 (List.range 10) "image/png" "mj" 5 0 0 (-1) 1 0
  exact ⟨h.1 rfl, h.2.1 (by decide), h.2.2.1 (by decide) (by decide), h.2.2.2.1,
    h.2.2.2.2.1, h.2.2.2.2.2.2 rfl⟩

/- Cache accounting lemmas. -/

theorem sumBytes_nil : sumBytes [] = 0 := rfl

theorem sumBytes_cons (kv : Nat × PreloadEntry) (l : List (Nat × PreloadEntry)) :
    sumBytes (kv :: l) = kv.2.byteLength + sumBytes l := by
  simp [sumBytes]

theorem sumBytes_filter_partition (p : Nat × PreloadEntry → Bool) :
    ∀ l : List (Nat × PreloadEntry),
    sumBytes (l.filter p) + sumBytes (l.filter fun kv => !p kv) = sumBytes l := by
  intro l
  induction l with
  | nil => rfl
  | cons kv rest ih =>
    cases hp : p kv <;> simp [List.filter_cons, hp, sumBytes_cons] <;> omega

theorem sumBytes_removeKey (k : Nat) :
    ∀ (l : List (Nat × PreloadEntry)) (v : PreloadEntry), lookupEntry k l = some v →
    sumBytes (removeKey k l) + v.byteLength = sumBytes l := by
  intro l
  induction l with
  | nil => intro v hv; simp [lookupEntry] at hv
  | cons kv rest ih =>
    intro v hv
    by_cases hk : kv.1 = k
    · have hv2 : v = kv.2 := by
        simp [lookupEntry, List.find?_cons, hk] at hv
        exact hv.symm
      subst hv2
      simp [removeKey, List.eraseP_cons, hk, sumBytes_cons]
      omega
    · have hfind : lookupEntry k rest = some v := by
        simpa [lookupEntry, List.find?_cons, hk] using hv
      have hbeq : (kv.1 == k) = false := by simp [hk]
      have := ih v hfind
      simp only [removeKey] at this ⊢
      simp [List.eraseP_cons, hbeq, sumBytes_cons]
      omega

theorem length_removeKey (k : Nat) :
    ∀ (l : List (Nat × PreloadEntry)) (v : PreloadEntry), lookupEntry k l = some v →
    (removeKey k l).length + 1 = l.length := by
  intro l
  induction l with
  | nil => intro v hv; simp [lookupEntry] at hv
  | cons kv rest ih =>
    intro v hv
    by_cases hk : kv.1 = k
    · simp [removeKey, List.eraseP_cons, hk]
    · have hfind : lookupEntry k rest = some v := by
        simpa [lookupEntry, List.find?_cons, hk] using hv
      have hbeq : (kv.1 == k) = false := by simp [hk]
      have := ih v hfind
      simp only [removeKey] at this ⊢
      simp [List.eraseP_cons, hbeq]
      omega

theorem removeKey_subset (k : Nat) (l : List (Nat × PreloadEntry)) :
    removeKey k l ⊆ l :=
  (List.eraseP_sublist l).subset

theorem findOldestAux_mem : ∀ (l : List (Nat × PreloadEntry)) (bk bt : Nat),
    findOldestAux l bk bt = bk ∨ findOldestAux l bk bt ∈ l.map (·.1) := by
  intro l
  induction l with
  | nil => intro bk bt; left; rfl
  | cons kv rest ih =>
    intro bk bt
    simp only [findOldestAux, List.map_cons, List.mem_cons]
    by_cases h : effLastUsed kv.2 < bt
    · rw [if_pos h]
      rcases ih kv.1 (effLastUsed kv.2) with h1 | h1
      · right; left; exact h1
      · right; right; exact h1
    · rw [if_neg h]
      rcases ih bk bt with h1 | h1
      · left; exact h1
      · right; right; exact h1

theorem findOldestKey_mem {l : List (Nat × PreloadEntry)} {k : Nat}
    (h : findOldestKey l = some k) : ∃ v, lookupEntry k l = some v := by
  match l with
  | [] => simp [findOldestKey] at h
  | kv :: rest =>
    have hk : findOldestAux rest kv.1 (effLastUsed kv.2) = k := by
      simpa [findOldestKey] using h
    have hmem : k ∈ (kv :: rest).map (·.1) := by
      rcases findOldestAux_mem rest kv.1 (effLastUsed kv.2) with h1 | h1
      · rw [hk] at h1; subst h1; simp
      · rw [hk] at h1; simp [h1]
    obtain ⟨p, hp, hpk⟩ := List.mem_map.mp hmem
    have hsome : ((kv :: rest).find? (fun q => q.1 == k)).isSome := by
      rw [List.find?_isSome]
      exact ⟨p, hp, by simp [hpk]⟩
    obtain ⟨q, hq⟩ := Option.isSome_iff_exists.mp hsome
    exact ⟨q.2, by simp [lookupEntry, hq]⟩

theorem findOldestKey_none_iff (l : List (Nat × PreloadEntry)) :
    findOldestKey l = none ↔ l = [] := by
  cases l <;> simp [findOldestKey]

theorem cacheInv_evictExpired (now : Nat) (c : PreloadCache) (h : cacheInv c) :
    cacheInv (evictExpired now c) := by
  have hpart := sumBytes_filter_partition (fun kv => ttlExpired now kv.2) c.entries
  simp only [cacheInv, evictExpired] at h ⊢
  omega

theorem evictCapacityFuel_spec : ∀ (fuel : Nat) (c : PreloadCache),
    c.entries.length ≤ fuel → cacheInv c →
    cacheInv (evictCapacityFuel fuel c) ∧
    (evictCapacityFuel fuel c).entries.length ≤ ENHANCED_PRELOAD_MAX_ENTRIES ∧
    (evictCapacityFuel fuel c).totalBytes ≤ (ENHANCED_PRELOAD_MAX_BYTES : Int) := by
  intro fuel
  induction fuel with
  | zero =>
    intro c hl hinv
    have h0 : c.entries = [] := List.eq_nil_of_length_eq_zero (Nat.le_zero.mp hl)
    have htb : c.totalBytes = 0 := by
      rw [hinv, h0]; rfl
    refine ⟨hinv, ?_, ?_⟩ <;> simp [evictCapacityFuel, h0, htb]
  | succ f ih =>
    intro c hl hinv
    by_cases hcond : ENHANCED_PRELOAD_MAX_ENTRIES < c.entries.length ∨
        (ENHANCED_PRELOAD_MAX_BYTES : Int) < c.totalBytes
    · cases hk : findOldestKey c.entries with
      | none =>
        have h0 : c.entries = [] := (findOldestKey_none_iff c.entries).mp hk
        have htb : c.totalBytes = 0 := by
          rw [hinv, h0]; rfl
        exfalso
        rcases hcond with hcond | hcond
        · rw [h0] at hcond; simp [ENHANCED_PRELOAD_MAX_ENTRIES] at hcond
        · rw [htb] at hcond
          have : (0 : Int) ≤ (ENHANCED_PRELOAD_MAX_BYTES : Int) := by positivity
          omega
      | some k =>
        obtain ⟨v, hv⟩ := findOldestKey_mem hk
        have hsum := sumBytes_removeKey k c.entries v hv
        have hlen := length_removeKey k c.entries v hv
        have hstep : evictCapacityFuel (f + 1) c =
            evictCapacityFuel f { entries := removeKey k c.entries,
                                  totalBytes := c.totalBytes -
                                    ((lookupEntry k c.entries).map (·.byteLength)).getD 0 } := by
          simp only [evictCapacityFuel]
          rw [if_pos hcond, hk]
        have hb : ((lookupEntry k c.entries).map (·.byteLength)).getD 0 = v.byteLength := by
          rw [hv]; rfl
        rw [hstep, hb]
        apply ih
        · show (removeKey k c.entries).length ≤ f
          omega
        · show c.totalBytes - (v.byteLength : Int) = (sumBytes (removeKey k c.entries) : Int)
          simp only [cacheInv] at hinv
          omega
    · have hstep : evictCapacityFuel (f + 1) c = c := by
        simp only [evictCapacityFuel]
        rw [if_neg hcond]
      rw [hstep]
      push_neg at hcond
      exact ⟨hinv, hcond.1, hcond.2⟩

theorem evictCapacityFuel_subset : ∀ (fuel : Nat) (c : PreloadCache),
    (evictCapacityFuel fuel c).entries ⊆ c.entries := by
  intro fuel
  induction fuel with
  | zero => intro c; simp [evictCapacityFuel]
  | succ f ih =>
    intro c
    simp only [evictCapacityFuel]
    by_cases hcond : ENHANCED_PRELOAD_MAX_ENTRIES < c.entries.length ∨
        (ENHANCED_PRELOAD_MAX_BYTES : Int) < c.totalBytes
    · rw [if_pos hcond]
      cases hk : findOldestKey c.entries with
      | none => exact fun x hx => hx
      | some k =>
        intro x hx
        exact removeKey_subset k c.entries (ih _ hx)
    · rw [if_neg hcond]
      exact fun x hx => hx

theorem evictSweep_spec (now : Nat) (c : PreloadCache) (h : cacheInv c) :
    cacheInv (evictEnhancedPreloadIfNeeded now c) ∧
    (evictEnhancedPreloadIfNeeded now c).entries.length ≤ ENHANCED_PRELOAD_MAX_ENTRIES ∧
    (evictEnhancedPreloadIfNeeded now c).totalBytes ≤ (ENHANCED_PRELOAD_MAX_BYTES : Int) := by
  exact evictCapacityFuel_spec _ _ le_rfl (cacheInv_evictExpired now c h)

theorem evictSweep_mem_fresh (now : Nat) (c : PreloadCache) (kv : Nat × PreloadEntry)
    (h : kv ∈ (evictEnhancedPreloadIfNeeded now c).entries) :
    ttlExpired now kv.2 = false := by
  have hmem : kv ∈ (evictExpired now c).entries :=
    evictCapacityFuel_subset _ (evictExpired now c) h
  have h2 : kv ∈ c.entries ∧ ttlExpired now kv.2 = false := by
    simpa [evictExpired, List.mem_filter] using hmem
  exact h2.2

theorem setEntry_cons_pos (k : Nat) (e : PreloadEntry) (kv : Nat × PreloadEntry)
    (rest : List (Nat × PreloadEntry)) (h : kv.1 = k) :
    setEntry k e (kv :: rest) = (k, e) :: rest := by
  simp [setEntry, h]

theorem setEntry_cons_neg (k : Nat) (e : PreloadEntry) (kv : Nat × PreloadEntry)
    (rest : List (Nat × PreloadEntry)) (h : ¬ kv.1 = k) :
    setEntry k e (kv :: rest) = kv :: setEntry k e rest := by
  simp [setEntry, h]

theorem setEntry_found (k : Nat) (e : PreloadEntry) :
    ∀ (l : List (Nat × PreloadEntry)) (v : PreloadEntry), lookupEntry k l = some v →
    (setEntry k e l).length = l.length ∧
    sumBytes (setEntry k e l) + v.byteLength = sumBytes l + e.byteLength := by
  intro l
  induction l with
  | nil => intro v hv; simp [lookupEntry] at hv
  | cons kv rest ih =>
    intro v hv
    by_cases hk : kv.1 = k
    · have hv2 : v = kv.2 := by
        simp [lookupEntry, List.find?_cons, hk] at hv
        exact hv.symm
      subst hv2
      rw [setEntry_cons_pos k e kv rest hk]
      refine ⟨rfl, ?_⟩
      show (k, e).2.byteLength + sumBytes rest + kv.2.byteLength
        = kv.2.byteLength + sumBytes rest + e.byteLength
      show e.byteLength + sumBytes rest + kv.2.byteLength
        = kv.2.byteLength + sumBytes rest + e.byteLength
      omega
    · have hfind : lookupEntry k rest = some v := by
        simpa [lookupEntry, List.find?_cons, hk] using hv
      have hih := ih v hfind
      rw [setEntry_cons_neg k e kv rest hk]
      simp only [List.length_cons, sumBytes_cons]
      omega

theorem setEntry_none (k : Nat) (e : PreloadEntry) :
    ∀ l : List (Nat × PreloadEntry), lookupEntry k l = none →
    (setEntry k e l).length = l.length + 1 ∧
    sumBytes (setEntry k e l) = sumBytes l + e.byteLength := by
  intro l
  induction l with
  | nil => intro _; simp [setEntry, sumBytes_cons, sumBytes_nil]
  | cons kv rest ih =>
    intro hv
    have hk : ¬ kv.1 = k := by
      intro h
      simp [lookupEntry, List.find?_cons, h] at hv
    have hfind : lookupEntry k rest = none := by
      simpa [lookupEntry, List.find?_cons, hk] using hv
    have hih := ih hfind
    rw [setEntry_cons_neg k e kv rest hk]
    simp only [List.length_cons, sumBytes_cons]
    omega

theorem lookupEntry_mem {key : Nat} {l : List (Nat × PreloadEntry)} {v : PreloadEntry}
    (hv : lookupEntry key l = some v) : (key, v) ∈ l := by
  cases hfind : l.find? (fun kv => kv.1 == key) with
  | none => simp [lookupEntry, hfind] at hv
  | some q =>
    have hq1 : q.1 = key := by
      have := List.find?_some hfind
      simpa using this
    have hq2 : q.2 = v := by
      simp [lookupEntry, hfind] at hv
      exact hv
    have hq : q = (key, v) := by
      obtain ⟨q1, q2⟩ := q
      simp only at hq1 hq2
      rw [hq1, hq2]
    rw [← hq]
    exact List.mem_of_find?_eq_some hfind

theorem getEntry_spec (now key : Nat) (c : PreloadCache) (h : cacheInv c) :
    cacheInv (getEnhancedPreloadEntry now key c).2 ∧
    (getEnhancedPreloadEntry now key c).2.entries.length ≤ ENHANCED_PRELOAD_MAX_ENTRIES ∧
    (getEnhancedPreloadEntry now key c).2.totalBytes ≤ (ENHANCED_PRELOAD_MAX_BYTES : Int) ∧
    freshAge now (getEnhancedPreloadEntry now key c).1 := by
  obtain ⟨hinv1, hlen1, htb1⟩ := evictSweep_spec now c h
  set c1 := evictEnhancedPreloadIfNeeded now c with hc1
  cases hv : lookupEntry key c1.entries with
  | none =>
    simp only [getEnhancedPreloadEntry, ← hc1, hv]
    exact ⟨hinv1, hlen1, htb1, trivial⟩
  | some v =>
    have hset := setEntry_found key { v with lastUsedAt := now } c1.entries v hv
    have hsetlen : (setEntry key { v with lastUsedAt := now } c1.entries).length
        = c1.entries.length := hset.1
    have hsetsum : sumBytes (setEntry key { v with lastUsedAt := now } c1.entries)
        = sumBytes c1.entries := by
      have h2 := hset.2
      simp only at h2
      omega
    have hfresh : ttlExpired now v = false :=
      evictSweep_mem_fresh now c (key, v) (lookupEntry_mem hv)
    have hage : now - v.createdAt ≤ ENHANCED_PRELOAD_TTL_MS := by
      simp [ttlExpired] at hfresh
      omega
    simp only [getEnhancedPreloadEntry, ← hc1, hv]
    refine ⟨?_, ?_, htb1, hage⟩
    · show c1.totalBytes = (sumBytes (setEntry key { v with lastUsedAt := now } c1.entries) : Int)
      simp only [cacheInv] at hinv1
      omega
    · show (setEntry key { v with lastUsedAt := now } c1.entries).length
        ≤ ENHANCED_PRELOAD_MAX_ENTRIES
      omega

theorem putEntry_spec (now key bytes : Nat) (c : PreloadCache) (h : cacheInv c) :
    cacheInv (putPreloadEntry now key bytes c) ∧
    (putPreloadEntry now key bytes c).entries.length ≤ ENHANCED_PRELOAD_MAX_ENTRIES ∧
    (putPreloadEntry now key bytes c).totalBytes ≤ (ENHANCED_PRELOAD_MAX_BYTES : Int) := by
  obtain ⟨hinv1, hlen1, htb1⟩ := evictSweep_spec now c h
  set c1 := evictEnhancedPreloadIfNeeded now c with hc1
  simp only [cacheInv] at hinv1
  cases hv : lookupEntry key c1.entries with
  | none =>
    have hset := setEntry_none key
      { byteLength := bytes, createdAt := now, lastUsedAt := now } c1.entries hv
    have hsetsum : sumBytes (setEntry key
        { byteLength := bytes, createdAt := now, lastUsedAt := now } c1.entries)
        = sumBytes c1.entries + bytes := by
      have h2 := hset.2
      simp only at h2
      omega
    have hput : putPreloadEntry now key bytes c =
        evictEnhancedPreloadIfNeeded now
          { entries := setEntry key
              { byteLength := bytes, createdAt := now, lastUsedAt := now } c1.entries,
            totalBytes := c1.totalBytes + bytes } := by
      simp only [putPreloadEntry, ← hc1, hv]
    rw [hput]
    apply evictSweep_spec
    show c1.totalBytes + (bytes : Int) = (sumBytes (setEntry key
      { byteLength := bytes, createdAt := now, lastUsedAt := now } c1.entries) : Int)
    rw [hsetsum]
    push_cast
    omega
  | some prev =>
    have hset := setEntry_found key
      { byteLength := bytes, createdAt := now, lastUsedAt := now } c1.entries prev hv
    have hsetsum : sumBytes (setEntry key
        { byteLength := bytes, createdAt := now, lastUsedAt := now } c1.entries)
        + prev.byteLength = sumBytes c1.entries + bytes := by
      have h2 := hset.2
      simp only at h2
      omega
    have hput : putPreloadEntry now key bytes c =
        evictEnhancedPreloadIfNeeded now
          { entries := setEntry key
              { byteLength := bytes, createdAt := now, lastUsedAt := now } c1.entries,
            totalBytes := c1.totalBytes - prev.byteLength + bytes } := by
      simp only [putPreloadEntry, ← hc1, hv]
    rw [hput]
    apply evictSweep_spec
    show c1.totalBytes - (prev.byteLength : Int) + (bytes : Int) = (sumBytes (setEntry key
      { byteLength := bytes, createdAt := now, lastUsedAt := now } c1.entries) : Int)
    omega

theorem cacheInv_applyOp (c : PreloadCache) (op : CacheOp) (h : cacheInv c) :
    cacheInv (applyCacheOp c op) := by
  cases op with
  | sweep now => exact (evictSweep_spec now c h).1
  | get now key => exact (getEntry_spec now key c h).1
  | put now key bytes => exact (putEntry_spec now key bytes c h).1

theorem cacheInv_foldl : ∀ (ops : List CacheOp) (c : PreloadCache), cacheInv c →
    cacheInv (ops.foldl applyCacheOp c) := by
  intro ops
  induction ops with
  | nil => intro c h; exact h
  | cons op rest ih =>
    intro c h
    exact ih (applyCacheOp c op) (cacheInv_applyOp c op h)

theorem cacheInv_runCacheOps (ops : List CacheOp) : cacheInv (runCacheOps ops) :=
  cacheInv_foldl ops emptyPreloadCache rfl

/-- C10: after any sequence of cache operations starting from the empty
cache, the running byte counter enhancedPreloadTotalBytes equals the sum of
byteLength over the entries currently in the cache — every insert, replace,
TTL removal and capacity eviction adjusts the counter by exactly the
affected entry's byteLength. -/
theorem preload_cache_byte_accounting (ops : List CacheOp) :
    (runCacheOps ops).totalBytes = (sumBytes (runCacheOps ops).entries : Int) :=
  cacheInv_runCacheOps ops

/-- C2: after every eviction sweep — and after every get and every put, each
of which runs the sweep — a cache reached by any operation sequence holds at
most maxEntries = 6 entries and at most maxBytes = 140 MiB, and a get never
returns an entry whose age since createdAt exceeds the TTL. -/
theorem preload_cache_bounds_and_ttl (ops : List CacheOp) (now key bytes : Nat) :
    (evictEnhancedPreloadIfNeeded now (runCacheOps ops)).entries.length
      ≤ ENHANCED_PRELOAD_MAX_ENTRIES ∧
    (evictEnhancedPreloadIfNeeded now (runCacheOps ops)).totalBytes
      ≤ (ENHANCED_PRELOAD_MAX_BYTES : Int) ∧
    (getEnhancedPreloadEntry now key (runCacheOps ops)).2.entries.length
      ≤ ENHANCED_PRELOAD_MAX_ENTRIES ∧
    (getEnhancedPreloadEntry now key (runCacheOps ops)).2.totalBytes
      ≤ (ENHANCED_PRELOAD_MAX_BYTES : Int) ∧
    freshAge now (getEnhancedPreloadEntry now key (runCacheOps ops)).1 ∧
    (putPreloadEntry now key bytes (runCacheOps ops)).entries.length
      ≤ ENHANCED_PRELOAD_MAX_ENTRIES ∧
    (putPreloadEntry now key bytes (runCacheOps ops)).totalBytes
      ≤ (ENHANCED_PRELOAD_MAX_BYTES : Int) := by
  have hinv := cacheInv_runCacheOps ops
  obtain ⟨_, hs1, hs2⟩ := evictSweep_spec now (runCacheOps ops) hinv
  obtain ⟨_, hg1, hg2, hg3⟩ := getEntry_spec now key (runCacheOps ops) hinv
  obtain ⟨_, hp1, hp2⟩ := putEntry_spec now key bytes (runCacheOps ops) hinv
  exact ⟨hs1, hs2, hg1, hg2, hg3, hp1, hp2⟩

/-- C3 counterexample: the capacity eviction does not break lastUsedAt ties
by oldest createdAt.  Build the cache by six puts (keys 1..6 at times 1..6),
re-put key 1 at time 7 (replace in place: createdAt 7, lastUsedAt 7), touch
key 2 at time 7 (createdAt 2, lastUsedAt 7) and keys 3..6 at time 8, then put
key 7 at time 9.  Just before the final sweep the cache holds 7 entries and
the minimal lastUsedAt 7 is tied between key 1 (createdAt 7) and key 2
(createdAt 2); an oldest-createdAt tie-break would evict key 2, but the code
evicts key 1, the first of the tied entries in insertion order. -/
theorem preload_cache_tiebreak_counterexample :
    (let c12 := runCacheOps [.put 1 1 1, .put 2 2 1, .put 3 3 1, .put 4 4 1, .put 5 5 1,
       .put 6 6 1, .put 7 1 1, .get 7 2, .get 8 3, .get 8 4, .get 8 5, .get 8 6]
     let mid : PreloadCache :=
       { entries := setEntry 7 { byteLength := 1, createdAt := 9, lastUsedAt := 9 }
           (evictEnhancedPreloadIfNeeded 9 c12).entries,
         totalBytes := (evictEnhancedPreloadIfNeeded 9 c12).totalBytes + 1 }
     mid.entries.length = 7 ∧
     lookupEntry 1 mid.entries = some { byteLength := 1, createdAt := 7, lastUsedAt := 7 } ∧
     lookupEntry 2 mid.entries = some { byteLength := 1, createdAt := 2, lastUsedAt := 7 } ∧
     (mid.entries.all fun kv => kv.1 == 1 || kv.1 == 2 || decide (7 < effLastUsed kv.2)) = true ∧
     putPreloadEntry 9 7 1 c12 = evictEnhancedPreloadIfNeeded 9 mid ∧
     lookupEntry 1 (putPreloadEntry 9 7 1 c12).entries = none ∧
     lookupEntry 2 (putPreloadEntry 9 7 1 c12).entries
       = some { byteLength := 1, createdAt := 2, lastUsedAt := 7 }) := by
  decide

theorem foldlMin_le : ∀ (xs : List Nat) (b : Nat), xs.foldl min b ≤ b := by
  intro xs
  induction xs with
  | nil => intro b; exact le_rfl
  | cons x rest ih =>
    intro b
    calc rest.foldl min (min b x) ≤ min b x := ih (min b x)
    _ ≤ b := Nat.min_le_left b x

theorem foldlMin_mem : ∀ (xs : List Nat) (b : Nat),
    xs.foldl min b = b ∨ xs.foldl min b ∈ xs := by
  intro xs
  induction xs with
  | nil => intro b; left; rfl
  | cons x rest ih =>
    intro b
    simp only [List.foldl_cons, List.mem_cons]
    rcases Nat.le_total b x with hbx | hxb
    · rw [Nat.min_eq_left hbx]
      rcases ih b with h | h
      · left; exact h
      · right; right; exact h
    · rw [Nat.min_eq_right hxb]
      rcases ih x with h | h
      · right; left; exact h
      · right; right; exact h

theorem findOldestAux_charact : ∀ (l : List (Nat × PreloadEntry)) (bk bt : Nat),
    findOldestAux l bk bt =
      if bt = (l.map fun p => effLastUsed p.2).foldl min bt then bk
      else (((l.find? fun p => effLastUsed p.2
          == (l.map fun q => effLastUsed q.2).foldl min bt).map (·.1)).getD bk) := by
  intro l
  induction l with
  | nil => intro bk bt; simp [findOldestAux]
  | cons p rest ih =>
    intro bk bt
    have hfold : ((p :: rest).map fun q => effLastUsed q.2).foldl min bt
        = (rest.map fun q => effLastUsed q.2).foldl min (min bt (effLastUsed p.2)) := by
      simp [List.map_cons, List.foldl_cons]
    by_cases hlt : effLastUsed p.2 < bt
    · have hmin : min bt (effLastUsed p.2) = effLastUsed p.2 :=
        Nat.min_eq_right (Nat.le_of_lt hlt)
      have hm' : ((p :: rest).map fun q => effLastUsed q.2).foldl min bt
          = (rest.map fun q => effLastUsed q.2).foldl min (effLastUsed p.2) := by
        rw [hfold, hmin]
      have hmle : (rest.map fun q => effLastUsed q.2).foldl min (effLastUsed p.2)
          ≤ effLastUsed p.2 := foldlMin_le _ _
      have hne : ¬ bt = ((p :: rest).map fun q => effLastUsed q.2).foldl min bt := by
        rw [hm']; omega
      rw [if_neg hne]
      have hstep : findOldestAux (p :: rest) bk bt
          = findOldestAux rest p.1 (effLastUsed p.2) := by
        simp [findOldestAux, hlt]
      rw [hstep, ih p.1 (effLastUsed p.2), hm']
      set m := (rest.map fun q => effLastUsed q.2).foldl min (effLastUsed p.2) with hmdef
      by_cases hep : effLastUsed p.2 = m
      · rw [if_pos hep]
        have hhead : (effLastUsed p.2 == m) = true := by simp [hep]
        simp [List.find?_cons, hhead]
      · rw [if_neg hep]
        have hhead : (effLastUsed p.2 == m) = false := by simp [hep]
        rcases foldlMin_mem (rest.map fun q => effLastUsed q.2) (effLastUsed p.2) with h1 | h1
        · exact absurd h1.symm hep
        · obtain ⟨q, hq, hqe⟩ := List.mem_map.mp h1
          have hsome : ((rest.find? fun r => effLastUsed r.2 == m)).isSome := by
            rw [List.find?_isSome]
            exact ⟨q, hq, by simp [hqe]⟩
          obtain ⟨r, hr⟩ := Option.isSome_iff_exists.mp hsome
          simp [List.find?_cons, hhead, hr]
    · have hmin : min bt (effLastUsed p.2) = bt :=
        Nat.min_eq_left (Nat.le_of_not_lt hlt)
      have hm' : ((p :: rest).map fun q => effLastUsed q.2).foldl min bt
          = (rest.map fun q => effLastUsed q.2).foldl min bt := by
        rw [hfold, hmin]
      have hstep : findOldestAux (p :: rest) bk bt = findOldestAux rest bk bt := by
        simp [findOldestAux, hlt]
      rw [hstep, ih bk bt, hm']
      set m := (rest.map fun q => effLastUsed q.2).foldl min bt with hmdef
      by_cases hbt : bt = m
      · rw [if_pos hbt, if_pos hbt]
      · rw [if_neg hbt, if_neg hbt]
        have hmle : m ≤ bt := foldlMin_le _ _
        have hple : ¬ effLastUsed p.2 = m := by omega
        have hhead : (effLastUsed p.2 == m) = false := by simp [hple]
        simp [List.find?_cons, hhead]

/-- C3 amended: each capacity removal takes the remaining entry minimizing
effective last use (lastUsedAt, falling back to createdAt when lastUsedAt is
0), with ties broken by earliest position in insertion (iteration) order —
not by oldest createdAt; the victim scan findOldestKey equals that
specification, and with maxEntries = 6, inserting 7 distinct keys with
strictly increasing lastUsedAt evicts the first-inserted key first. -/
theorem preload_cache_lru_eviction_amended :
    (∀ l : List (Nat × PreloadEntry), findOldestKey l = specOldestKey l) ∧
    lookupEntry 1 (runCacheOps [.put 1 1 10, .put 2 2 10, .put 3 3 10, .put 4 4 10,
      .put 5 5 10, .put 6 6 10, .put 7 7 10]).entries = none ∧
    (runCacheOps [.put 1 1 10, .put 2 2 10, .put 3 3 10, .put 4 4 10,
      .put 5 5 10, .put 6 6 10, .put 7 7 10]).entries.map (·.1) = [2, 3, 4, 5, 6, 7] := by
  refine ⟨?_, by decide, by decide⟩
  intro l
  cases l with
  | nil => rfl
  | cons kv rest =>
    simp only [findOldestKey, specOldestKey]
    rw [findOldestAux_charact]
    have hfold : ((kv :: rest).map fun q => effLastUsed q.2).foldl min (effLastUsed kv.2)
        = (rest.map fun q => effLastUsed q.2).foldl min (effLastUsed kv.2) := by
      simp [List.map_cons, List.foldl_cons]
    set m := (rest.map fun q => effLastUsed q.2).foldl min (effLastUsed kv.2) with hmdef
    by_cases h : effLastUsed kv.2 = m
    · rw [if_pos h]
      have hhead : (effLastUsed kv.2 == m) = true := by simp [h]
      simp [List.find?_cons, hhead]
    · rw [if_neg h]
      have hhead : (effLastUsed kv.2 == m) = false := by simp [h]
      rcases foldlMin_mem (rest.map fun q => effLastUsed q.2) (effLastUsed kv.2) with h1 | h1
      · exact absurd h1.symm h
      · obtain ⟨q, hq, hqe⟩ := List.mem_map.mp h1
        have hsome : ((rest.find? fun r => effLastUsed r.2 == m)).isSome := by
          rw [List.find?_isSome]
          exact ⟨q, hq, by simp [hqe]⟩
        obtain ⟨r, hr⟩ := Option.isSome_iff_exists.mp hsome
        simp [List.find?_cons, hhead, hr]

/-- C4: while no cooldown is active, each failed enhancement attempt
increments the consecutive-failure counter (leaving the cooldown deadline
unchanged); the 5th consecutive failure (counter at 4 before the attempt)
sets the deadline 20 s ahead and resets the counter to 0; an attempt during
an active cooldown is rejected with no state change at all; and concretely,
five failures at times 1..5 from the zero state engage cooldown until 20005
with the counter reset, after which a 6th attempt at time 6 is rejected
without incrementing the counter. -/
theorem failure_cooldown_threshold :
    ∀ (n1 n2 n3 : Nat) (s1 s2 s3 : HostFailState),
    (¬ n1 < s1.aiHostDownUntil → s1.aiHostFailCount + 1 < 5 →
      enhanceViaHostStep n1 false s1
        = (.failed, { s1 with aiHostFailCount := s1.aiHostFailCount + 1 })) ∧
    (¬ n2 < s2.aiHostDownUntil → s2.aiHostFailCount = 4 →
      enhanceViaHostStep n2 false s2
        = (.cooldownEngaged, { aiHostDownUntil := n2 + 20000, aiHostFailCount := 0 })) ∧
    (n3 < s3.aiHostDownUntil → enhanceViaHostStep n3 false s3 = (.cooldownActive, s3)) ∧
    runFailedAttempts [1, 2, 3, 4, 5] { aiHostDownUntil := 0, aiHostFailCount := 0 }
      = { aiHostDownUntil := 20005, aiHostFailCount := 0 } ∧
    enhanceViaHostStep 6 false { aiHostDownUntil := 20005, aiHostFailCount := 0 }
      = (.cooldownActive, { aiHostDownUntil := 20005, aiHostFailCount := 0 }) := by
  intro n1 n2 n3 s1 s2 s3
  refine ⟨?_, ?_, ?_, by decide, by decide⟩
  · intro hcd hfc
    have h5 : ¬ 5 ≤ s1.aiHostFailCount + 1 := by omega
    simp [enhanceViaHostStep, hcd, h5]
  · intro hcd hfc
    have h5 : 5 ≤ s2.aiHostFailCount + 1 := by omega
    simp [enhanceViaHostStep, hcd, h5]
  · intro hcd
    simp [enhanceViaHostStep, hcd]

/-- Witness for C4: a failure at time 10 with counter 2 increments to 3; a
failure at time 10 with counter 4 (the 5th consecutive failure) engages a
cooldown until 20010 and resets the counter; an attempt at time 5 during a
cooldown until 100 is rejected unchanged. -/
theorem failure_cooldown_threshold_witness :
    enhanceViaHostStep 10 false { aiHostDownUntil := 0, aiHostFailCount := 2 }
      = (.failed, { aiHostDownUntil := 0, aiHostFailCount := 3 }) ∧
    enhanceViaHostStep 10 false { aiHostDownUntil := 0, aiHostFailCount := 4 }
      = (.cooldownEngaged, { aiHostDownUntil := 20010, aiHostFailCount := 0 }) ∧
    enhanceViaHostStep 5 false { aiHostDownUntil := 100, aiHostFailCount := 0 }
      = (.cooldownActive, { aiHostDownUntil := 100, aiHostFailCount := 0 }) := by
  have h := failure_cooldown_threshold 10 10 5
    { aiHostDownUntil := 0, aiHostFailCount := 2 }
    { aiHostDownUntil := 0, aiHostFailCount := 4 }
    { aiHostDownUntil := 100, aiHostFailCount := 0 }
  exact ⟨h.1 (by decide) (by decide), h.2.1 (by decide) (by decide), h.2.2.1 (by decide)⟩

/- BurstState anonymous-constructor field order below:
   aiBurstCount, aiBurstLastAt, aiHostDownUntil, cooldownNotifiedUntil. -/

/-- C5 counterexample: the burst controller does not count failed attempts —
in the processOnce cycle the bump runs only after processImageElement
resolves, so a failed attempt (auto mode, count at 3) leaves the count at 3;
further, the trigger point is the fixed count 8 with an 8 s cooldown window,
with no request-mode dependence: the bump takes no mode input at all, the
7th counted attempt never triggers and the 8th always does. -/
theorem burst_counts_only_success_counterexample :
    processOnceBurstStep true false false 200 ⟨3, 100, 0, 0⟩ = ⟨3, 100, 0, 0⟩ ∧
    (bumpAiBurstAndMaybeCooldown true 200 ⟨6, 100, 0, 0⟩).1 = false ∧
    bumpAiBurstAndMaybeCooldown true 200 ⟨7, 100, 0, 0⟩
      = (true, ⟨0, 200, 8200, 8200⟩) := by
  decide

/-- C5 amended: the burst controller counts only attempts that reach the
bump — successful enhancements in automatic mode (autoPanel set, not a
manual run); a failed attempt and a manual run leave the state untouched;
the rolling count resets after more than 25 s since the last bump; below
the fixed limit 8 the bump just counts; and at the 8th counted attempt it
forces an 8 s cooldown and resets the count even though the attempts
succeeded. -/
theorem burst_controller_amended :
    ∀ (a s : Bool) (n0 n1 n2 n3 : Nat) (st0 st1 st2 st3 : BurstState),
    processOnceBurstStep a s false n0 st0 = st0 ∧
    ((a && !s) = false → processOnceBurstStep a s true n0 st0 = st0) ∧
    (processOnceBurstStep true false true n0 st0
      = (bumpAiBurstAndMaybeCooldown true n0 st0).2) ∧
    (st1.aiBurstLastAt = 0 ∨ 25000 < n1 - st1.aiBurstLastAt →
      bumpAiBurstAndMaybeCooldown true n1 st1
        = (false, { st1 with aiBurstCount := 1, aiBurstLastAt := n1 })) ∧
    (¬ (st2.aiBurstLastAt = 0 ∨ 25000 < n2 - st2.aiBurstLastAt) →
      st2.aiBurstCount + 1 < 8 →
      bumpAiBurstAndMaybeCooldown true n2 st2
        = (false, { st2 with aiBurstCount := st2.aiBurstCount + 1, aiBurstLastAt := n2 })) ∧
    (¬ (st3.aiBurstLastAt = 0 ∨ 25000 < n3 - st3.aiBurstLastAt) →
      ¬ st3.aiBurstCount + 1 < 8 →
      (bumpAiBurstAndMaybeCooldown true n3 st3).1 = true ∧
      (bumpAiBurstAndMaybeCooldown true n3 st3).2.aiHostDownUntil = n3 + 8000 ∧
      (bumpAiBurstAndMaybeCooldown true n3 st3).2.aiBurstCount = 0) := by
  intro a s n0 n1 n2 n3 st0 st1 st2 st3
  refine ⟨?_, ?_, ?_, ?_, ?_, ?_⟩
  · simp [processOnceBurstStep]
  · intro hmode
    simp [processOnceBurstStep, hmode]
  · simp [processOnceBurstStep]
  · intro hreset
    have h1 : (1 : Nat) < 8 := by omega
    simp [bumpAiBurstAndMaybeCooldown, hreset, h1]
  · intro hreset hlt
    simp [bumpAiBurstAndMaybeCooldown, hreset, hlt]
  · intro hreset hge
    simp [bumpAiBurstAndMaybeCooldown, hreset, hge]

/-- Witness for C5 amended: concrete instances — a manual run does not bump;
an idle gap since time 100 observed at time 40000 resets the count to 1; a
counted attempt at count 4 goes to 5 with no cooldown; the 8th counted
attempt at time 300 triggers an 8 s cooldown and resets the count. -/
theorem burst_controller_amended_witness :
    processOnceBurstStep false true true 50 ⟨2, 10, 0, 0⟩ = ⟨2, 10, 0, 0⟩ ∧
    bumpAiBurstAndMaybeCooldown true 40000 ⟨5, 100, 0, 0⟩
      = (false, ⟨1, 40000, 0, 0⟩) ∧
    bumpAiBurstAndMaybeCooldown true 300 ⟨4, 100, 0, 0⟩
      = (false, ⟨5, 300, 0, 0⟩) ∧
    (bumpAiBurstAndMaybeCooldown true 300 ⟨7, 100, 0, 0⟩).1 = true ∧
    (bumpAiBurstAndMaybeCooldown true 300 ⟨7, 100, 0, 0⟩).2.aiHostDownUntil = 8300 ∧
    (bumpAiBurstAndMaybeCooldown true 300 ⟨7, 100, 0, 0⟩).2.aiBurstCount = 0 := by
  have h := burst_controller_amended false true 50 40000 300 300
    ⟨2, 10, 0, 0⟩ ⟨5, 100, 0, 0⟩ ⟨4, 100, 0, 0⟩ ⟨7, 100, 0, 0⟩
  obtain ⟨-, h2, -, h4, h5, h6⟩ := h
  have h6w := h6 (by decide) (by decide)
  exact ⟨h2 (by decide), h4 (by decide), h5 (by decide) (by decide), h6w.1, h6w.2.1, h6w.2.2⟩

/-- C6: ensureHostRunning issues a start command per caller rather than a
single-flight shared one.  With the host down and the health cache cold, two
concurrent calls interleaved at their await points (both ping, both then
issue start, the host comes up, both poll successfully) finish with both
callers resolving true but startCount = 2: two start commands were issued
where the single-flight behavior documented in the changelog promises
exactly one. -/
theorem ensure_running_duplicate_start :
    runSched (ensureInitEnv, [.atPing, .atPing])
      [.run 0, .run 1, .run 0, .run 1, .hostComesUp, .tick 400, .run 0, .run 1]
      = ({ hostUp := true, hostOkUntil := 2400, clock := 400, startCount := 2 },
         [.finished true, .finished true]) := by
  decide

/- Strict-best selection lemmas for the tracked-map loop. -/

theorem findBestTrackedAux_lockIn (comix : Bool) (vw vh : ℚ) :
    ∀ (l : List TrackedImg) (a : TrackedImg),
    (∀ b ∈ l, b.usable = true → trackedScore comix vw vh b ≤ trackedScore comix vw vh a) →
    findBestTrackedAux comix vw vh l (some a) (trackedScore comix vw vh a) = some a := by
  intro l
  induction l with
  | nil => intro a _; rfl
  | cons t rest ih =>
    intro a hub
    by_cases hu : t.usable
    · have hle : trackedScore comix vw vh t ≤ trackedScore comix vw vh a :=
        hub t (List.mem_cons_self t rest) hu
      have hnlt : ¬ trackedScore comix vw vh a < trackedScore comix vw vh t := not_lt.mpr hle
      simp only [findBestTrackedAux, hu, if_true, hnlt, if_false]
      exact ih a (fun b hb => hub b (List.mem_cons_of_mem t hb))
    · simp only [findBestTrackedAux, hu, if_false]
      exact ih a (fun b hb => hub b (List.mem_cons_of_mem t hb))

theorem findBestTrackedAux_reach (comix : Bool) (vw vh : ℚ) :
    ∀ (l : List TrackedImg) (a : TrackedImg) (best : Option TrackedImg) (s : ℚ),
    a ∈ l → a.usable = true →
    (∀ b ∈ l, b.usable = true →
      trackedScore comix vw vh b < trackedScore comix vw vh a ∨ b = a) →
    s < trackedScore comix vw vh a →
    findBestTrackedAux comix vw vh l best s = some a := by
  intro l
  induction l with
  | nil => intro a best s hmem; simp at hmem
  | cons t rest ih =>
    intro a best s hmem hu hub hs
    by_cases hta : t = a
    · subst hta
      simp only [findBestTrackedAux, hu, if_true, hs, if_true]
      exact findBestTrackedAux_lockIn comix vw vh rest t (by
        intro b hb hbu
        rcases hub b (List.mem_cons_of_mem t hb) hbu with h | h
        · exact le_of_lt h
        · rw [h])
    · have hmem2 : a ∈ rest := by
        rcases List.mem_cons.mp hmem with h | h
        · exact absurd h.symm hta
        · exact h
      have hub2 : ∀ b ∈ rest, b.usable = true →
          trackedScore comix vw vh b < trackedScore comix vw vh a ∨ b = a :=
        fun b hb => hub b (List.mem_cons_of_mem t hb)
      by_cases hu2 : t.usable
      · have ht : trackedScore comix vw vh t < trackedScore comix vw vh a := by
          rcases hub t (List.mem_cons_self t rest) hu2 with h | h
          · exact h
          · exact absurd h hta
        by_cases hlt : s < trackedScore comix vw vh t
        · simp only [findBestTrackedAux, hu2, if_true, hlt, if_true]
          exact ih a (some t) (trackedScore comix vw vh t) hmem2 hu hub2 ht
        · simp only [findBestTrackedAux, hu2, if_true, hlt, if_false]
          exact ih a best s hmem2 hu hub2 hs
      · simp only [findBestTrackedAux, hu2, if_false]
        exact ih a best s hmem2 hu hub2 hs

/-- C7: among the tracked items, a usable item whose effective score
score x centerBoost x siteBoost (centerBoost = 1/(1 + dx + 1.4 dy)) is
positive and strictly above every other usable item's is the one
findBestVisibleImage returns; and in a 1000x1000 viewport a centered item of
area 40000 (effective score 40000) beats an item at dx = dy = 0.4 of area
50000 (effective score 50000/(49/25) = 1250000/49, about 25510). -/
theorem visibility_best_item_selection :
    ∀ (comix : Bool) (vw vh : ℚ) (tracked : List TrackedImg)
      (pageImgs : List PageImg) (a : TrackedImg),
    (a ∈ tracked → a.usable = true → 0 < trackedScore comix vw vh a →
      (∀ b ∈ tracked, b.usable = true →
        trackedScore comix vw vh b < trackedScore comix vw vh a ∨ b = a) →
      findBestVisibleImage comix vw vh tracked pageImgs = some a.id) ∧
    (findBestVisibleImage false 1000 1000
      [⟨1, 40000, 500, 500, true⟩, ⟨2, 50000, 900, 900, true⟩] [] = some 1 ∧
     trackedScore false 1000 1000 ⟨1, 40000, 500, 500, true⟩ = 40000 ∧
     trackedScore false 1000 1000 ⟨2, 50000, 900, 900, true⟩ = 1250000 / 49) := by
  intro comix vw vh tracked pageImgs a
  constructor
  · intro hmem hu hpos hub
    have hbest := findBestTrackedAux_reach comix vw vh tracked a none 0 hmem hu hub hpos
    simp only [findBestVisibleImage, hbest]
  · refine ⟨?_, ?_, ?_⟩
    · simp only [findBestVisibleImage, findBestTrackedAux, trackedScore, scoreImg]
      norm_num
    · simp only [trackedScore, scoreImg]
      norm_num
    · simp only [trackedScore, scoreImg]
      norm_num

/-- Witness for C7 at the spec scenario: in the 1000x1000 viewport with the
two tracked items, item 1 is in the list, usable, has positive score 40000
strictly above item 2's 1250000/49, and the scan returns item 1. -/
theorem visibility_best_item_selection_witness :
    findBestVisibleImage false 1000 1000
      [⟨1, 40000, 500, 500, true⟩, ⟨2, 50000, 900, 900, true⟩]
      [⟨9, 0, 0, 100, 100, true⟩] = some 1 := by
  have h := (visibility_best_item_selection false 1000 1000
    [⟨1, 40000, 500, 500, true⟩, ⟨2, 50000, 900, 900, true⟩]
    [⟨9, 0, 0, 100, 100, true⟩] ⟨1, 40000, 500, 500, true⟩).1
  apply h
  · simp
  · rfl
  · simp only [trackedScore, scoreImg]
    norm_num
  · intro b hb hbu
    rcases List.mem_cons.mp hb with hb1 | hb1
    · right; exact hb1
    · left
      have hb2 : b = ⟨2, 50000, 900, 900, true⟩ := by simpa using hb1
      subst hb2
      simp only [trackedScore, scoreImg]
      norm_num

/- Strict-best selection lemmas for the fallback full scan. -/

theorem fallbackEff_of_area (comix : Bool) {vw vh : ℚ} {p : PageImg} {area : ℚ}
    (h : fallbackArea vw vh p = some area) :
    fallbackEff comix vw vh p
      = scoreImg comix vw vh area (p.left + p.width / 2) (p.top + p.height / 2) := by
  simp [fallbackEff, h]

theorem findBestFallbackAux_lockIn (comix : Bool) (vw vh : ℚ) :
    ∀ (l : List PageImg) (q : PageImg),
    (∀ b ∈ l, fallbackEff comix vw vh b ≤ fallbackEff comix vw vh q) →
    findBestFallbackAux comix vw vh l (some q) (fallbackEff comix vw vh q) = some q := by
  intro l
  induction l with
  | nil => intro q _; rfl
  | cons p rest ih =>
    intro q hub
    cases harea : fallbackArea vw vh p with
    | none =>
      simp only [findBestFallbackAux, harea]
      exact ih q (fun b hb => hub b (List.mem_cons_of_mem p hb))
    | some area =>
      have heff := fallbackEff_of_area comix harea
      have hle : fallbackEff comix vw vh p ≤ fallbackEff comix vw vh q :=
        hub p (List.mem_cons_self p rest)
      rw [heff] at hle
      have hnlt : ¬ fallbackEff comix vw vh q
          < scoreImg comix vw vh area (p.left + p.width / 2) (p.top + p.height / 2) :=
        not_lt.mpr hle
      simp only [findBestFallbackAux, harea, hnlt, if_false]
      exact ih q (fun b hb => hub b (List.mem_cons_of_mem p hb))

theorem findBestFallbackAux_reach (comix : Bool) (vw vh : ℚ) :
    ∀ (l : List PageImg) (q : PageImg) (best : Option PageImg) (s : ℚ),
    q ∈ l → (fallbackArea vw vh q).isSome = true →
    (∀ p ∈ l, fallbackEff comix vw vh p < fallbackEff comix vw vh q ∨ p = q) →
    s < fallbackEff comix vw vh q →
    findBestFallbackAux comix vw vh l best s = some q := by
  intro l
  induction l with
  | nil => intro q best s hmem; simp at hmem
  | cons p rest ih =>
    intro q best s hmem harea hub hs
    by_cases hpq : p = q
    · subst hpq
      obtain ⟨aq, haq⟩ := Option.isSome_iff_exists.mp harea
      have heff := fallbackEff_of_area comix haq
      rw [heff] at hs
      simp only [findBestFallbackAux, haq, hs, if_true]
      rw [← heff]
      exact findBestFallbackAux_lockIn comix vw vh rest p (by
        intro b hb
        rcases hub b (List.mem_cons_of_mem p hb) with h | h
        · exact le_of_lt h
        · rw [h])
    · have hmem2 : q ∈ rest := by
        rcases List.mem_cons.mp hmem with h | h
        · exact absurd h.symm hpq
        · exact h
      have hub2 : ∀ b ∈ rest, fallbackEff comix vw vh b < fallbackEff comix vw vh q ∨ b = q :=
        fun b hb => hub b (List.mem_cons_of_mem p hb)
      cases hpa : fallbackArea vw vh p with
      | none =>
        simp only [findBestFallbackAux, hpa]
        exact ih q best s hmem2 harea hub2 hs
      | some ap =>
        have heffp := fallbackEff_of_area comix hpa
        have hlt : fallbackEff comix vw vh p < fallbackEff comix vw vh q := by
          rcases hub p (List.mem_cons_self p rest) with h | h
          · exact h
          · exact absurd h hpq
        by_cases hup : s < scoreImg comix vw vh ap (p.left + p.width / 2) (p.top + p.height / 2)
        · simp only [findBestFallbackAux, hpa, hup, if_true]
          rw [← heffp]
          exact ih q (some p) _ hmem2 harea hub2 hlt
        · simp only [findBestFallbackAux, hpa, hup, if_false]
          exact ih q best s hmem2 harea hub2 hs

/-- C8 counterexample: the fallback full scan does not rank by raw
intersection area.  In a 1000x1000 viewport with the tracked map empty, an
image of intersection area 46000 centered at (900, 900) and an image of
intersection area 40000 centered at (500, 500) both qualify, yet the scan
picks the smaller-area centered one (id 1) because the same
centerBoost-weighted score as the tracked path is applied. -/
theorem fallback_scan_not_raw_area_counterexample :
    findBestVisibleImage false 1000 1000 []
      [⟨2, 770, 800, 260, 200, true⟩, ⟨1, 400, 400, 200, 200, true⟩] = some 1 ∧
    fallbackArea 1000 1000 ⟨2, 770, 800, 260, 200, true⟩ = some 46000 ∧
    fallbackArea 1000 1000 ⟨1, 400, 400, 200, 200, true⟩ = some 40000 ∧
    (40000 : ℚ) < 46000 := by
  refine ⟨?_, ?_, ?_, by norm_num⟩
  · simp only [findBestVisibleImage, findBestTrackedAux, findBestFallbackAux,
      fallbackArea, scoreImg]
    norm_num
  · simp only [fallbackArea]
    norm_num
  · simp only [fallbackArea]
    norm_num

/-- C8 amended: when the tracked map is empty, findBestVisibleImage falls
back to the full scan of the document's images, which ranks the qualifying
candidates (usable url, at least 80x80, positive viewport intersection) by
the same boosted score as the tracked path — intersection area x centerBoost
x siteBoost — not by raw area: a qualifying image whose boosted score is
positive and strictly above every other's is returned. -/
theorem fallback_scan_boosted_ranking_amended :
    ∀ (comix : Bool) (vw vh : ℚ) (pageImgs : List PageImg) (q : PageImg),
    q ∈ pageImgs → (fallbackArea vw vh q).isSome = true →
    0 < fallbackEff comix vw vh q →
    (∀ p ∈ pageImgs, fallbackEff comix vw vh p < fallbackEff comix vw vh q ∨ p = q) →
    findBestVisibleImage comix vw vh [] pageImgs = some q.id := by
  intro comix vw vh pageImgs q hmem harea hpos hub
  have hbest := findBestFallbackAux_reach comix vw vh pageImgs q none 0 hmem harea hub hpos
  simp only [findBestVisibleImage, findBestTrackedAux, hbest]
  rfl

/-- Witness for C8 amended: in the 1000x1000 viewport with the two images of
the counterexample, the centered image (id 1, boosted score 40000) qualifies
and strictly beats the off-center one (boosted score 1150000/49), and the
fallback returns id 1. -/
theorem fallback_scan_boosted_ranking_amended_witness :
    findBestVisibleImage false 1000 1000 []
      [⟨2, 770, 800, 260, 200, true⟩, ⟨1, 400, 400, 200, 200, true⟩] = some 1 := by
  have h := fallback_scan_boosted_ranking_amended false 1000 1000
    [⟨2, 770, 800, 260, 200, true⟩, ⟨1, 400, 400, 200, 200, true⟩]
    ⟨1, 400, 400, 200, 200, true⟩
  apply h
  · simp
  · simp only [fallbackArea]
    norm_num
  · simp only [fallbackEff, fallbackArea, scoreImg]
    norm_num
  · intro p hp
    rcases List.mem_cons.mp hp with hp1 | hp1
    · left
      subst hp1
      simp only [fallbackEff, fallbackArea, scoreImg]
      norm_num
    · right
      simpa using hp1
